import Mathlib

/-!
# A shallow embedding of the `jstr` zero-copy JSON-like parser

The Rust source (`src/lib.rs`) is a small recursive-descent parser over `&str`
slices.  We model text as `List Char` and borrowed sub-slices as the
corresponding character lists.  Every slice boundary the source produces sits
on a character boundary except one: the unchecked `&s[1..]` at the top of
`get_object`/`get_array` is a BYTE slice, which panics when `s` is empty and
also when the first character of `s` occupies more than one byte (byte index
1 is then not a character boundary).  That site is modelled explicitly with
`Char.utf8Size`; every other slice in the source is taken at an index the
code has just checked to hold a one-byte character (`"`, a digit, `-`, `{`,
`[`, `}`, `]`) or at an offset computed from `char_indices`, so the
character-list model is exact there.

Rust `Result` values become `PResult`; a Rust runtime panic (the unchecked
byte slice just described, or the `unwrap` in `get_boolean`) is modelled by
the explicit outcome `PResult.crash`.

The mutually recursive composite scanners are given a `fuel` argument purely to
satisfy Lean's termination checker; `none` means the artificial fuel ran out
and never corresponds to a behaviour of the source.  The entry point supplies
fuel `2 * length + 8`, which is proved sufficient wherever a theorem needs it.
-/

set_option maxHeartbeats 1000000
set_option linter.unnecessarySeqFocus false
set_option linter.unnecessarySimpa false
set_option linter.unusedVariables false

namespace Jstr

/-- The error taxonomy: `enum Error { BadChar(char, usize), NoEnd, EarlyEnd }`. -/
inductive Error : Type where
  | BadChar : Char → Nat → Error
  | NoEnd : Error
  | EarlyEnd : Error
deriving DecidableEq

/-- Outcome of running a piece of the Rust code: `ok`/`err` mirror `Result`,
while `crash` marks an out-of-band Rust panic (out-of-bounds slicing or a
failed `unwrap`). -/
inductive PResult (α : Type) : Type where
  | ok : α → PResult α
  | err : Error → PResult α
  | crash : PResult α
deriving DecidableEq

mutual
/-- `enum Value<'a>`: each scalar variant holds a borrowed slice of the input,
modelled as the corresponding character list. -/
inductive Value : Type where
  | boolean : List Char → Value
  | string : List Char → Value
  | number : List Char → Value
  | object : List Entry → Value
  | array : List Value → Value

/-- `struct Entry<'a> { key: &'a str, value: Value<'a> }`. -/
inductive Entry : Type where
  | mk : List Char → Value → Entry
end

/-- `type Object<'a> = Box<[Entry<'a>]>`. -/
abbrev Object : Type := List Entry

/-- `skip_whitespace`: returns the suffix starting at the first character that
is none of space, newline, comma, colon (the empty suffix if all are). -/
def skip_whitespace : List Char → List Char
  | [] => []
  | c :: tl =>
    if c = ' ' ∨ c = '\n' ∨ c = ',' ∨ c = ':' then skip_whitespace tl else c :: tl

/-- The scan loop of `get_str` over `s[1..]`: walks the characters tracking the
escape flag (`esc`), and returns the index of the terminating quote, if any.
A set flag unconditionally skips one character and clears; `\\` sets it;
an unescaped `"` terminates. -/
def scanStr : List Char → Bool → Option Nat
  | [], _ => none
  | c :: tl, esc =>
    if esc then (scanStr tl false).map (· + 1)
    else if c = '\\' then (scanStr tl true).map (· + 1)
    else if c = '"' then some 0
    else (scanStr tl false).map (· + 1)

/-- `get_str`: expects a leading `"`, scans to the first unescaped `"`, and
returns the content strictly between the quotes plus the remainder one past the
closing quote (`(&s[1..index+1], &s[index+2..])` in the source). -/
def get_str (s : List Char) : PResult (List Char × List Char) :=
  match s with
  | [] => .err .EarlyEnd
  | c :: tl =>
    if c ≠ '"' then .err (.BadChar c 0)
    else
      match scanStr tl false with
      | some index => .ok (tl.take index, tl.drop (index + 1))
      | none => .err .NoEnd

/-- The scan loop of `get_num` over `s[1..]`: index of the first non-digit. -/
def findNonDigit : List Char → Option Nat
  | [] => none
  | c :: tl => if c.isDigit then (findNonDigit tl).map (· + 1) else some 0

/-- `get_num`: expects a leading digit or `-`, then scans digits; on the first
non-digit at offset `i+1` it returns `(&s[..i+1], &s[i+1..])`; if the digits
run to end-of-input it fails with `NoEnd`. -/
def get_num (s : List Char) : PResult (List Char × List Char) :=
  match s with
  | [] => .err .EarlyEnd
  | c :: tl =>
    if ¬(c.isDigit ∨ c = '-') then .err (.BadChar c 0)
    else
      match findNonDigit tl with
      | some i => .ok ((c :: tl).take (i + 1), (c :: tl).drop (i + 1))
      | none => .err .NoEnd

/-- The character list of the literal `true`. -/
def true_lit : List Char := ['t', 'r', 'u', 'e']

/-- The character list of the literal `false`. -/
def false_lit : List Char := ['f', 'a', 'l', 's', 'e']

/-- Rust `str::starts_with` on character lists (second argument is the
pattern). -/
def starts_with : List Char → List Char → Bool
  | _, [] => true
  | [], _ :: _ => false
  | c :: tl, p :: ptl => c = p && starts_with tl ptl

/-- `get_boolean`: exact-case literal match of `true`/`false`; otherwise
`BadChar` reporting the first character — whose `unwrap` crashes when the
input is empty. -/
def get_boolean (s : List Char) : PResult (List Char × List Char) :=
  if starts_with s true_lit then .ok (s.take 4, s.drop 4)
  else if starts_with s false_lit then .ok (s.take 5, s.drop 5)
  else
    match s with
    | [] => .crash
    | c :: _ => .err (.BadChar c 0)

/-- Rust `char::to_ascii_lowercase`. -/
def to_ascii_lowercase (c : Char) : Char :=
  if 'A' ≤ c ∧ c ≤ 'Z' then Char.ofNat (c.toNat + 32) else c

mutual
/-- `get_object`: takes the byte slice `&s[1..]` unconditionally — a crash on
empty input, and also a crash when the first character is multi-byte (byte 1
is then not a character boundary) — and runs the entry-accumulation loop. -/
def get_object (fuel : Nat) (s : List Char) : Option (PResult (Object × List Char)) :=
  match fuel with
  | 0 => none
  | fuel + 1 =>
    match s with
    | [] => some .crash
    | c :: cur => if c.utf8Size ≠ 1 then some .crash else object_loop fuel cur []

/-- The `while cur_s.chars().nth(0)? != '}'` loop of `get_object`, with the
accumulated entry vector explicit.  One loop iteration: peek (EarlyEnd when
exhausted), exit on `}` (then re-skip and slice off the `}`), otherwise skip
whitespace, scan one entry and push it. -/
def object_loop (fuel : Nat) (cur_s : List Char) (object : List Entry) :
    Option (PResult (Object × List Char)) :=
  match fuel with
  | 0 => none
  | fuel + 1 =>
    match cur_s with
    | [] => some (.err .EarlyEnd)
    | c :: _ =>
      if c = '}' then
        match skip_whitespace cur_s with
        | [] => some .crash
        | _ :: rest => some (.ok (object, rest))
      else
        match get_entry fuel (skip_whitespace cur_s) with
        | none => none
        | some .crash => some .crash
        | some (.err e) => some (.err e)
        | some (.ok (entry, s1)) => object_loop fuel s1 (object ++ [entry])

/-- `get_array`: symmetric to `get_object`, including the byte-slice crash on
an empty input or a multi-byte first character. -/
def get_array (fuel : Nat) (s : List Char) : Option (PResult (List Value × List Char)) :=
  match fuel with
  | 0 => none
  | fuel + 1 =>
    match s with
    | [] => some .crash
    | c :: cur => if c.utf8Size ≠ 1 then some .crash else array_loop fuel cur []

/-- The value-accumulation loop of `get_array`. -/
def array_loop (fuel : Nat) (cur_s : List Char) (array : List Value) :
    Option (PResult (List Value × List Char)) :=
  match fuel with
  | 0 => none
  | fuel + 1 =>
    match cur_s with
    | [] => some (.err .EarlyEnd)
    | c :: _ =>
      if c = ']' then
        match skip_whitespace cur_s with
        | [] => some .crash
        | _ :: rest => some (.ok (array, rest))
      else
        match get_value fuel (skip_whitespace cur_s) with
        | none => none
        | some .crash => some .crash
        | some (.err e) => some (.err e)
        | some (.ok (value, s1)) => array_loop fuel s1 (array ++ [value])

/-- `get_value`: the dispatcher; peeks the first character (EarlyEnd if none)
and routes on it in source order: `"`, digit or `-`, `{`, `[`,
case-insensitive `t`/`f`, otherwise `BadChar`. -/
def get_value (fuel : Nat) (s : List Char) : Option (PResult (Value × List Char)) :=
  match fuel with
  | 0 => none
  | fuel + 1 =>
    match s with
    | [] => some (.err .EarlyEnd)
    | c :: _ =>
      if c = '"' then
        match get_str s with
        | .ok (str, rem) => some (.ok (.string str, rem))
        | .err e => some (.err e)
        | .crash => some .crash
      else if c.isDigit ∨ c = '-' then
        match get_num s with
        | .ok (num, rem) => some (.ok (.number num, rem))
        | .err e => some (.err e)
        | .crash => some .crash
      else if c = '{' then
        match get_object fuel s with
        | none => none
        | some .crash => some .crash
        | some (.err e) => some (.err e)
        | some (.ok (o, rem)) => some (.ok (.object o, rem))
      else if c = '[' then
        match get_array fuel s with
        | none => none
        | some .crash => some .crash
        | some (.err e) => some (.err e)
        | some (.ok (a, rem)) => some (.ok (.array a, rem))
      else if to_ascii_lowercase c = 't' ∨ to_ascii_lowercase c = 'f' then
        match get_boolean s with
        | .ok (b, rem) => some (.ok (.boolean b, rem))
        | .err e => some (.err e)
        | .crash => some .crash
      else some (.err (.BadChar c 0))

/-- `get_entry`: key via `get_key` (= `get_str`), skip separators, value via
`get_value`. -/
def get_entry (fuel : Nat) (s : List Char) : Option (PResult (Entry × List Char)) :=
  match fuel with
  | 0 => none
  | fuel + 1 =>
    match get_str s with
    | .crash => some .crash
    | .err e => some (.err e)
    | .ok (key, s1) =>
      match get_value fuel (skip_whitespace s1) with
      | none => none
      | some .crash => some .crash
      | some (.err e) => some (.err e)
      | some (.ok (value, s2)) => some (.ok (.mk key value, s2))
end

/-- `get_key` is literally `get_str`. -/
def get_key (s : List Char) : PResult (List Char × List Char) :=
  get_str s

/-- `deserialize`: skip leading whitespace/separators, then scan an object.
The source needs no fuel; `2 * length + 8` is sufficient everywhere this
development evaluates or reasons about the parser. -/
def deserialize (s : List Char) : Option (PResult (Object × List Char)) :=
  get_object (2 * s.length + 8) (skip_whitespace s)

/-! ## Spec-side definitions

The definitions below are written from the words of the specification (not
from the source): they are the yardsticks the scanners are measured against.
-/

/-- Decidable matcher for the claim's regular pattern `-?[0-9]+`: an optional
sign followed by at least one decimal digit. -/
def numPat : List Char → Bool
  | [] => false
  | c :: tl => (if c = '-' then !tl.isEmpty else c.isDigit) && tl.all (·.isDigit)

/-- Length of the run of backslashes immediately preceding the end of `l`. -/
def backslashRun (l : List Char) : Nat :=
  (l.reverse.takeWhile (fun c => c = '\\')).length

/-- From the claim: position `i` of `l` holds a `"` that is preceded by an
even (possibly zero) run of backslashes, i.e. an unescaped quote. -/
def unescapedQuoteAt (l : List Char) (i : Nat) : Prop :=
  l[i]? = some '"' ∧ backslashRun (l.take i) % 2 = 0

/-! ## A generator of well-formed object texts

A decorated tree (`DValue`/`DEntry`/`DElem`) is a value tree together with
the separator runs its text carries: each entry records the run before its
key and the run between its key and its value, and each array element records
the run before it.  `dtextValue` prints such a tree; the texts so produced
are exactly object/array texts with arbitrary whitespace/separator runs in
every position the scanners tolerate them — before each key, between key and
value, before each array element — and none immediately before a closing
`}`/`]`.  `dvalidValue` delimits the decorated trees whose text the parser
accepts: separator runs drawn from the skip set, string contents with no
unescaped quote and no dangling final backslash, numbers that are a
sign-or-digit followed by digits, booleans literally `true`/`false`, and in
an array no element immediately followed by a digit (lest the number scan of
one element swallow the next). -/

/-- String content on which the `get_str` scan terminates exactly at the next
quote: no unescaped `"` inside, and no dangling final backslash. -/
def strOk : List Char → Bool
  | [] => true
  | c :: tl =>
    if c = '\\' then
      match tl with
      | [] => false
      | _ :: tl2 => strOk tl2
    else if c = '"' then false
    else strOk tl

/-- Membership in the skip set of `skip_whitespace`. -/
def isSep (c : Char) : Bool :=
  c == ' ' || c == '\n' || c == ',' || c == ':'

/-- The list is empty or starts with a non-digit (so that a number scan
running into it stops at its first character). -/
def headNonDigit : List Char → Bool
  | [] => true
  | c :: _ => !c.isDigit

mutual
/-- A value tree decorated with the separator runs of its text. -/
inductive DValue : Type where
  | boolean : List Char → DValue
  | string : List Char → DValue
  | number : List Char → DValue
  | object : List DEntry → DValue
  | array : List DElem → DValue

/-- A decorated entry: the separator run before the key's opening quote, the
key, the separator run between the key's closing quote and the value, and the
decorated value. -/
inductive DEntry : Type where
  | mk : List Char → List Char → List Char → DValue → DEntry

/-- A decorated array element: the separator run before the element, and the
decorated value. -/
inductive DElem : Type where
  | mk : List Char → DValue → DElem
end

mutual
/-- The plain value tree underlying a decorated one. -/
def stripValue : DValue → Value
  | .boolean b => .boolean b
  | .string str => .string str
  | .number n => .number n
  | .object des => .object (stripEntries des)
  | .array dvs => .array (stripElems dvs)

/-- The plain entries underlying decorated ones. -/
def stripEntries : List DEntry → List Entry
  | [] => []
  | .mk _ k _ v :: tl => .mk k (stripValue v) :: stripEntries tl

/-- The plain element values underlying decorated ones. -/
def stripElems : List DElem → List Value
  | [] => []
  | .mk _ v :: tl => stripValue v :: stripElems tl
end

mutual
/-- The text of a decorated value. -/
def dtextValue : DValue → List Char
  | .boolean b => b
  | .string str => '"' :: (str ++ ['"'])
  | .number n => n
  | .object des => '{' :: (dtextEntries des ++ ['}'])
  | .array dvs => '[' :: (dtextElems dvs ++ [']'])

/-- The text of a decorated entry sequence: each entry contributes its
leading separator run, its quoted key, its key-value separator run, and its
value's text. -/
def dtextEntries : List DEntry → List Char
  | [] => []
  | .mk sep1 k sep2 v :: tl =>
    sep1 ++ ('"' :: (k ++ '"' :: (sep2 ++ (dtextValue v ++ dtextEntries tl))))

/-- The text of a decorated element sequence: each element contributes its
leading separator run and its value's text. -/
def dtextElems : List DElem → List Char
  | [] => []
  | .mk sep v :: tl => sep ++ (dtextValue v ++ dtextElems tl)
end

mutual
/-- The separator runs are drawn from the skip set and the scalar slices of
the tree are tokens the scalar scanners accept. -/
def dvalidValue : DValue → Bool
  | .boolean b => b == true_lit || b == false_lit
  | .string str => strOk str
  | .number n =>
    match n with
    | [] => false
    | c :: ds => (c.isDigit || c == '-') && ds.all (·.isDigit)
  | .object des => dvalidEntries des
  | .array dvs => dvalidElems dvs

/-- Validity of a decorated entry list. -/
def dvalidEntries : List DEntry → Bool
  | [] => true
  | .mk sep1 k sep2 v :: tl =>
    sep1.all isSep && sep2.all isSep && strOk k && dvalidValue v && dvalidEntries tl

/-- Validity of a decorated element list; the `headNonDigit` conjunct keeps a
number element from running into a digit that starts the rest of the text. -/
def dvalidElems : List DElem → Bool
  | [] => true
  | .mk sep v :: tl =>
    sep.all isSep && dvalidValue v && dvalidElems tl && headNonDigit (dtextElems tl)
end

/-! ## Helper lemmas: the number scan -/

theorem findNonDigit_eq_none (l : List Char) :
    findNonDigit l = none ↔ ∀ c ∈ l, c.isDigit = true := by
  induction l with
  | nil => simp [findNonDigit]
  | cons c tl ih =>
    by_cases hc : c.isDigit <;> simp [findNonDigit, hc, ih]

theorem findNonDigit_eq_some (l : List Char) (i : Nat) (h : findNonDigit l = some i) :
    l.take i = l.takeWhile (·.isDigit) ∧ l.drop i = l.dropWhile (·.isDigit) ∧
    ∃ c ctl, l.drop i = c :: ctl ∧ c.isDigit = false := by
  induction l generalizing i with
  | nil => simp [findNonDigit] at h
  | cons c tl ih =>
    by_cases hc : c.isDigit
    · simp only [findNonDigit, hc, if_pos, Option.map_eq_some'] at h
      obtain ⟨i', hi', rfl⟩ := h
      obtain ⟨htake, hdrop, c', ctl, hd, hnd⟩ := ih i' hi'
      refine ⟨?_, ?_, c', ctl, ?_, hnd⟩
      · simp [List.takeWhile_cons, hc, htake]
      · simp [List.dropWhile_cons, hc, hdrop]
      · simpa [List.dropWhile_cons, hc, ← hdrop] using hd
    · have h0 : (0 : Nat) = i := by simpa [findNonDigit, hc] using h
      subst h0
      simp [List.takeWhile_cons, List.dropWhile_cons, hc]

theorem findNonDigit_append (ds : List Char) (r0 : Char) (rrest : List Char)
    (hds : ∀ d ∈ ds, d.isDigit = true) (hr0 : r0.isDigit = false) :
    findNonDigit (ds ++ r0 :: rrest) = some ds.length := by
  induction ds with
  | nil => simp [findNonDigit, hr0]
  | cons d dtl ih =>
    have hd : d.isDigit = true := hds d (by simp)
    have := ih (fun c hc => hds c (by simp [hc]))
    simp [findNonDigit, hd, this]

/-! ## Helper lemmas: the string scan and backslash runs -/

theorem backslashRun_nil : backslashRun [] = 0 := rfl

theorem backslashRun_snoc (l : List Char) (c : Char) :
    backslashRun (l ++ [c]) = if c = '\\' then backslashRun l + 1 else 0 := by
  by_cases hc : c = '\\' <;>
    simp [backslashRun, List.reverse_append, List.takeWhile_cons, hc]

theorem take_append_cons_self (pre : List Char) (c : Char) (tl : List Char) :
    (pre ++ c :: tl).take pre.length = pre :=
  List.take_left pre (c :: tl)

theorem getElem?_append_cons_self (pre : List Char) (c : Char) (tl : List Char) :
    (pre ++ c :: tl)[pre.length]? = some c := by
  rw [List.getElem?_append_right (Nat.le_refl _)]
  simp

/-- A position holding a character other than an unescaped quote is not an
unescaped-quote position. -/
theorem not_unescaped_head (pre : List Char) (c : Char) (tl : List Char)
    (hne : ¬ (c = '"' ∧ backslashRun pre % 2 = 0)) :
    ¬ unescapedQuoteAt (pre ++ c :: tl) pre.length := by
  intro hq
  obtain ⟨hq1, hq2⟩ := hq
  rw [getElem?_append_cons_self] at hq1
  rw [take_append_cons_self] at hq2
  exact hne ⟨Option.some.inj hq1, hq2⟩

/-- Soundness of the escape scan, generalised over the already-processed
prefix `pre`: provided the escape flag equals the parity of the backslash run
ending the prefix, a hit is an unescaped quote with no earlier unescaped
quote in the unprocessed part. -/
theorem scanStr_some_spec (l : List Char) :
    ∀ (esc : Bool) (pre : List Char) (i : Nat),
      (esc = true ↔ backslashRun pre % 2 = 1) →
      scanStr l esc = some i →
      unescapedQuoteAt (pre ++ l) (pre.length + i) ∧
      ∀ j, pre.length ≤ j → j < pre.length + i → ¬ unescapedQuoteAt (pre ++ l) j := by
  induction l with
  | nil => intro esc pre i _ h; simp [scanStr] at h
  | cons c tl ih =>
    intro esc pre i hesc h
    have hL : pre ++ c :: tl = (pre ++ [c]) ++ tl := by simp
    have step : ∀ (esc' : Bool) (i' : Nat),
        (esc' = true ↔ backslashRun (pre ++ [c]) % 2 = 1) →
        scanStr tl esc' = some i' →
        ¬ (c = '"' ∧ backslashRun pre % 2 = 0) →
        unescapedQuoteAt (pre ++ c :: tl) (pre.length + (i' + 1)) ∧
        ∀ j, pre.length ≤ j → j < pre.length + (i' + 1) →
          ¬ unescapedQuoteAt (pre ++ c :: tl) j := by
      intro esc' i' hpre' hscan hne
      obtain ⟨h1, h2⟩ := ih esc' (pre ++ [c]) i' hpre' hscan
      constructor
      · rw [hL]
        have hidx : pre.length + (i' + 1) = (pre ++ [c]).length + i' := by
          simp
          omega
        rw [hidx]
        exact h1
      · intro j hj1 hj2
        rcases Nat.lt_or_ge j (pre.length + 1) with hj | hj
        · have hjeq : j = pre.length := by omega
          subst hjeq
          exact not_unescaped_head pre c tl hne
        · rw [hL]
          exact h2 j (by simpa using hj) (by simp; omega)
    cases esc with
    | true =>
      have hrun : backslashRun pre % 2 = 1 := hesc.mp rfl
      simp only [scanStr, if_pos, Option.map_eq_some'] at h
      obtain ⟨i', hi', rfl⟩ := h
      have hne1 : backslashRun (pre ++ [c]) % 2 ≠ 1 := by
        rw [backslashRun_snoc]
        by_cases hc : c = '\\' <;> simp [hc] <;> omega
      exact step false i' (by simp [hne1]) hi' (fun hx => by omega)
    | false =>
      have hrun0 : backslashRun pre % 2 = 0 := by
        rcases Nat.mod_two_eq_zero_or_one (backslashRun pre) with h0 | h1
        · exact h0
        · exact absurd (hesc.mpr h1) (by simp)
      by_cases hc : c = '\\'
      · simp only [scanStr, hc, Bool.false_eq_true, if_false, if_pos,
          Option.map_eq_some'] at h
        obtain ⟨i', hi', rfl⟩ := h
        have hone : backslashRun (pre ++ [c]) % 2 = 1 := by
          rw [backslashRun_snoc, if_pos hc]
          omega
        exact step true i' (by simp [hone]) hi'
          (fun hx => by rw [hx.1] at hc; exact absurd hc (by decide))
      · by_cases hq : c = '"'
        · have h0 : (0 : Nat) = i := by simpa [scanStr, hc, hq] using h
          subst h0
          constructor
          · refine ⟨?_, ?_⟩
            · rw [Nat.add_zero, getElem?_append_cons_self, hq]
            · rw [Nat.add_zero, take_append_cons_self]
              exact hrun0
          · intro j hj1 hj2
            omega
        · simp only [scanStr, hc, hq, Bool.false_eq_true, if_false,
            Option.map_eq_some'] at h
          obtain ⟨i', hi', rfl⟩ := h
          have hz : backslashRun (pre ++ [c]) % 2 ≠ 1 := by
            rw [backslashRun_snoc, if_neg hc]
            omega
          exact step false i' (by simp [hz]) hi' (fun hx => hq hx.1)

/-- Completeness of the escape scan: when it finds nothing, no position of
the unprocessed part is an unescaped quote. -/
theorem scanStr_none_spec (l : List Char) :
    ∀ (esc : Bool) (pre : List Char),
      (esc = true ↔ backslashRun pre % 2 = 1) →
      scanStr l esc = none →
      ∀ j, pre.length ≤ j → ¬ unescapedQuoteAt (pre ++ l) j := by
  induction l with
  | nil =>
    intro esc pre _ _ j hj hq
    obtain ⟨hq1, _⟩ := hq
    rw [List.append_nil] at hq1
    rw [List.getElem?_eq_none hj] at hq1
    exact Option.noConfusion hq1
  | cons c tl ih =>
    intro esc pre hesc h j hj
    have hL : pre ++ c :: tl = (pre ++ [c]) ++ tl := by simp
    have step : ∀ (esc' : Bool),
        (esc' = true ↔ backslashRun (pre ++ [c]) % 2 = 1) →
        scanStr tl esc' = none →
        ¬ (c = '"' ∧ backslashRun pre % 2 = 0) →
        ¬ unescapedQuoteAt (pre ++ c :: tl) j := by
      intro esc' hpre' hscan hne
      rcases Nat.lt_or_ge j (pre.length + 1) with hlt | hge
      · have hjeq : j = pre.length := by omega
        subst hjeq
        exact not_unescaped_head pre c tl hne
      · rw [hL]
        exact ih esc' (pre ++ [c]) hpre' hscan j (by simpa using hge)
    cases esc with
    | true =>
      have hrun : backslashRun pre % 2 = 1 := hesc.mp rfl
      simp only [scanStr, if_pos, Option.map_eq_none'] at h
      have hne1 : backslashRun (pre ++ [c]) % 2 ≠ 1 := by
        rw [backslashRun_snoc]
        by_cases hc : c = '\\' <;> simp [hc] <;> omega
      exact step false (by simp [hne1]) h (fun hx => by omega)
    | false =>
      have hrun0 : backslashRun pre % 2 = 0 := by
        rcases Nat.mod_two_eq_zero_or_one (backslashRun pre) with h0 | h1
        · exact h0
        · exact absurd (hesc.mpr h1) (by simp)
      by_cases hc : c = '\\'
      · simp only [scanStr, hc, Bool.false_eq_true, if_false, if_pos,
          Option.map_eq_none'] at h
        have hone : backslashRun (pre ++ [c]) % 2 = 1 := by
          rw [backslashRun_snoc, if_pos hc]
          omega
        exact step true (by simp [hone]) h
          (fun hx => by rw [hx.1] at hc; exact absurd hc (by decide))
      · by_cases hq : c = '"'
        · exact absurd h (by simp [scanStr, hc, hq])
        · simp only [scanStr, hc, hq, Bool.false_eq_true, if_false,
            Option.map_eq_none'] at h
          have hz : backslashRun (pre ++ [c]) % 2 ≠ 1 := by
            rw [backslashRun_snoc, if_neg hc]
            omega
          exact step false (by simp [hz]) h (fun hx => hq hx.1)

theorem get_str_noEnd_iff (s : List Char) :
    get_str s = .err .NoEnd ↔ ∃ tl, s = '"' :: tl ∧ ∀ i, ¬ unescapedQuoteAt tl i := by
  constructor
  · intro h
    rcases s with _ | ⟨c, tl⟩
    · exact absurd h (by simp [get_str])
    · by_cases hc : c = '"'
      · subst hc
        refine ⟨tl, rfl, ?_⟩
        rcases hscan : scanStr tl false with _ | i
        · intro i
          exact scanStr_none_spec tl false [] (by simp [backslashRun_nil]) hscan i
            (Nat.zero_le i)
        · exact absurd h (by simp [get_str, hscan])
      · exact absurd h (by simp [get_str, hc])
  · rintro ⟨tl, rfl, hno⟩
    rcases hscan : scanStr tl false with _ | i
    · simp [get_str, hscan]
    · obtain ⟨hq, _⟩ :=
        scanStr_some_spec tl false [] i (by simp [backslashRun_nil]) hscan
      simp only [List.nil_append, List.length_nil, Nat.zero_add] at hq
      exact absurd hq (hno i)

theorem get_num_noEnd_iff (s : List Char) :
    get_num s = .err .NoEnd ↔
      ∃ c tl, s = c :: tl ∧ (c.isDigit = true ∨ c = '-') ∧
        ∀ d ∈ tl, d.isDigit = true := by
  constructor
  · intro h
    rcases s with _ | ⟨c, tl⟩
    · exact absurd h (by simp [get_num])
    · by_cases hcd : (c.isDigit ∨ c = '-')
      · rcases hfd : findNonDigit tl with _ | i
        · exact ⟨c, tl, rfl, by simpa using hcd, (findNonDigit_eq_none tl).mp hfd⟩
        · exact absurd h (by simp [get_num, hcd, hfd])
      · exact absurd h (by simp [get_num, hcd])
  · rintro ⟨c, tl, rfl, hcd, hall⟩
    have hfd := (findNonDigit_eq_none tl).mpr hall
    have hcd' : (c.isDigit ∨ c = '-') := by simpa using hcd
    simp [get_num, hcd', hfd]

/-! ## The claims -/

/-- C1 counterexample: on the empty input, `deserialize` does NOT return the
clean error `EarlyEnd` — the unchecked `&s[1..]` slice in `get_object` is an
out-of-bounds slice of the empty string, i.e. a Rust panic (`crash`). -/
theorem deserialize_empty_not_earlyEnd :
    deserialize [] = some PResult.crash ∧
    deserialize [] ≠ some (.err .EarlyEnd) := by
  refine ⟨rfl, fun h => ?_⟩
  rw [show deserialize [] = some PResult.crash from rfl] at h
  exact PResult.noConfusion (Option.some.inj h)

/-- C1 (amended): for the empty input string, `deserialize` panics (the
`&s[1..]` slice of `get_object` is out of bounds), rather than returning an
`Error` value. -/
theorem deserialize_empty_crashes : deserialize [] = some PResult.crash := rfl

/-- C3 counterexample: `get_num` succeeds on `"-a"` returning the slice `"-"`,
which does not match the pattern `-?[0-9]+` (it has no digit at all). -/
theorem get_num_sign_only :
    get_num ("-a".toList) = .ok (['-'], ['a']) ∧ numPat ['-'] = false :=
  ⟨rfl, rfl⟩

/-- C3 (amended): whenever `get_num` succeeds, the returned slice is the first
character of the input (a digit or `-`) followed by the maximal run of digits
after it — possibly zero digits, so a lone `-` is a possible slice — and the
remainder begins exactly at the first non-digit character after that first
character (the remainder is nonempty and starts with a non-digit); the slice
matches the claim's pattern `-?[0-9]+` exactly when it is not the degenerate
sign-only case (head `-` with an empty digit run after it). -/
theorem get_num_ok_spec (s slice rem : List Char)
    (h : get_num s = .ok (slice, rem)) :
    ∃ c tl, s = c :: tl ∧ (c.isDigit = true ∨ c = '-') ∧
      slice = c :: tl.takeWhile (·.isDigit) ∧
      rem = tl.dropWhile (·.isDigit) ∧
      s = slice ++ rem ∧
      (numPat slice = true ↔ ¬(c = '-' ∧ tl.takeWhile (·.isDigit) = [])) ∧
      ∃ r0 rtl, rem = r0 :: rtl ∧ r0.isDigit = false := by
  rcases s with _ | ⟨c, tl⟩
  · exact absurd h (by simp [get_num])
  by_cases hcd : (c.isDigit ∨ c = '-')
  · rcases hfd : findNonDigit tl with _ | i
    · exact absurd h (by simp [get_num, hcd, hfd])
    · obtain ⟨htake, hdrop, c', ctl, hd, hnd⟩ := findNonDigit_eq_some tl i hfd
      have h' : PResult.ok (c :: tl.take i, tl.drop i) = PResult.ok (slice, rem) := by
        rw [← h]
        simp [get_num, hcd, hfd]
      have hpair := PResult.ok.inj h'
      have hslice : c :: tl.take i = slice := congrArg Prod.fst hpair
      have hrem : tl.drop i = rem := congrArg Prod.snd hpair
      refine ⟨c, tl, rfl, by simpa using hcd, ?_, ?_, ?_, ?_, c', ctl, ?_, hnd⟩
      · rw [← hslice, htake]
      · rw [← hrem, hdrop]
      · rw [← hslice, ← hrem]
        simp [List.take_append_drop]
      · rw [← hslice, htake]
        have hDall : (tl.takeWhile (·.isDigit)).all (·.isDigit) = true := by
          rw [List.all_eq_true]
          intro x hx
          exact List.mem_takeWhile_imp hx
        by_cases hceq : c = '-'
        · subst hceq
          simp [numPat, hDall, List.isEmpty_iff]
        · have hcd' : c.isDigit = true := by
            rcases hcd with h'' | h''
            · exact h''
            · exact absurd h'' hceq
          simp [numPat, hceq, hcd', hDall]
      · rw [← hrem]
        exact hd
  · exact absurd h (by simp [get_num, hcd])

/-- C3 witness: `get_num "-12,"` succeeds and satisfies the characterization,
including the pattern clause (here the digit run is nonempty, and indeed the
slice `-12` matches `-?[0-9]+`). -/
theorem get_num_ok_spec_witness :
    ∃ c tl, ("-12,".toList) = c :: tl ∧ (c.isDigit = true ∨ c = '-') ∧
      (['-', '1', '2'] : List Char) = c :: tl.takeWhile (·.isDigit) ∧
      ([','] : List Char) = tl.dropWhile (·.isDigit) ∧
      ("-12,".toList) = ['-', '1', '2'] ++ [','] ∧
      (numPat ['-', '1', '2'] = true ↔ ¬(c = '-' ∧ tl.takeWhile (·.isDigit) = [])) ∧
      ∃ r0 rtl, ([','] : List Char) = r0 :: rtl ∧ r0.isDigit = false :=
  get_num_ok_spec ("-12,".toList) ['-', '1', '2'] [','] rfl

/-- C5: whenever `get_str` succeeds, the input decomposes as the opening
quote, the returned content verbatim, the closing quote, and the returned
remainder (so both quotes are excluded and the remainder starts one past the
closing quote); the closing quote is unescaped (even backslash run before
it), and every earlier quote in the content is escaped (odd backslash run),
i.e. the terminating quote is the first unescaped `"`. -/
theorem get_str_ok_spec (s content rem : List Char)
    (h : get_str s = .ok (content, rem)) :
    s = '"' :: (content ++ '"' :: rem) ∧
    backslashRun content % 2 = 0 ∧
    ∀ j, j < content.length → content[j]? = some '"' →
      backslashRun (content.take j) % 2 = 1 := by
  rcases s with _ | ⟨c, tl⟩
  · exact absurd h (by simp [get_str])
  by_cases hc : c = '"'
  swap
  · exact absurd h (by simp [get_str, hc])
  subst hc
  rcases hscan : scanStr tl false with _ | i
  · exact absurd h (by simp [get_str, hscan])
  have h' : PResult.ok (tl.take i, tl.drop (i + 1)) = PResult.ok (content, rem) := by
    rw [← h]
    simp [get_str, hscan]
  have hpair := PResult.ok.inj h'
  have hcont : tl.take i = content := congrArg Prod.fst hpair
  have hrem : tl.drop (i + 1) = rem := congrArg Prod.snd hpair
  obtain ⟨⟨hq, hrun⟩, hmin⟩ :=
    scanStr_some_spec tl false [] i (by simp [backslashRun_nil]) hscan
  simp only [List.nil_append, List.length_nil, Nat.zero_add] at hq hrun hmin
  obtain ⟨hi, hgi⟩ := List.getElem?_eq_some_iff.mp hq
  have hdecomp : tl = tl.take i ++ '"' :: tl.drop (i + 1) := by
    conv_lhs => rw [← List.take_append_drop i tl]
    rw [List.drop_eq_getElem_cons hi, hgi]
  have hlen : content.length = i := by
    rw [← hcont, List.length_take]
    omega
  refine ⟨?_, ?_, ?_⟩
  · rw [hcont, hrem] at hdecomp
    rw [hdecomp]
  · rw [← hcont]
    exact hrun
  · intro j hj hqj
    have hji : j < i := hlen ▸ hj
    have h1 : tl[j]? = some '"' := by
      rw [← List.getElem?_take_of_lt hji, hcont, hqj]
    have h2 : ¬ (tl[j]? = some '"' ∧ backslashRun (tl.take j) % 2 = 0) :=
      hmin j (Nat.zero_le j) hji
    have h3 : content.take j = tl.take j := by
      rw [← hcont, List.take_take]
      congr 1
      omega
    rw [h3]
    rcases Nat.mod_two_eq_zero_or_one (backslashRun (tl.take j)) with h0 | h1'
    · exact absurd ⟨h1, h0⟩ h2
    · exact h1'

/-- C5 witness: the spec's own scenario, key text `a\"b`: the scanner returns
the escaped-quote content verbatim and stops at the first unescaped quote. -/
theorem get_str_ok_spec_witness :
    ("\"a\\\"b\"".toList) = '"' :: (['a', '\\', '"', 'b'] ++ '"' :: []) ∧
    backslashRun ['a', '\\', '"', 'b'] % 2 = 0 ∧
    ∀ j, j < (['a', '\\', '"', 'b'] : List Char).length →
      (['a', '\\', '"', 'b'] : List Char)[j]? = some '"' →
      backslashRun ((['a', '\\', '"', 'b'] : List Char).take j) % 2 = 1 :=
  get_str_ok_spec ("\"a\\\"b\"".toList) ['a', '\\', '"', 'b'] [] rfl

/-- C6: `get_str` fails with `NoEnd` exactly when its input starts with `"`
and no position of the tail holds an unescaped quote; `get_num` fails with
`NoEnd` exactly when its input starts with a digit or `-` and every
subsequent character up to end-of-input is a digit. -/
theorem noEnd_characterization :
    (∀ s, get_str s = .err .NoEnd ↔
      ∃ tl, s = '"' :: tl ∧ ∀ i, ¬ unescapedQuoteAt tl i) ∧
    (∀ s, get_num s = .err .NoEnd ↔
      ∃ c tl, s = c :: tl ∧ (c.isDigit = true ∨ c = '-') ∧
        ∀ d ∈ tl, d.isDigit = true) :=
  ⟨get_str_noEnd_iff, get_num_noEnd_iff⟩

/-- C6 witness: `"\"ab"` (unterminated string) and `"-12"` (digits to
end-of-input) both produce `NoEnd`, and the characterizations instantiate. -/
theorem noEnd_characterization_witness :
    get_str ("\"ab".toList) = .err .NoEnd ∧ get_num ("-12".toList) = .err .NoEnd ∧
    (∃ tl, ("\"ab".toList) = '"' :: tl ∧ ∀ i, ¬ unescapedQuoteAt tl i) :=
  ⟨rfl, rfl, (noEnd_characterization.1 ("\"ab".toList)).mp rfl⟩

/-- C7: a lone `{` fails with `EarlyEnd` (the loop's peek runs off the end
before any `}` is seen), and `{}` parses to an object with zero entries and
an empty remainder. -/
theorem lone_brace_and_empty_object :
    deserialize ("\x7b".toList) = some (.err .EarlyEnd) ∧
    deserialize ("\x7b\x7d".toList) = some (.ok ([], [])) :=
  ⟨rfl, rfl⟩

/-- C9: `deserialize "{\"a\":[1,2,3]}"` returns an object with the single
entry `a` whose value is the array of the number slices `1`, `2`, `3` in
order, and an empty remainder. -/
theorem deserialize_array_scenario :
    deserialize ("\x7b\"a\":[1,2,3]\x7d".toList) =
      some (.ok ([.mk ['a'] (.array [.number ['1'], .number ['2'], .number ['3']])], [])) :=
  rfl

/-- C4 counterexample: the claim says every non-`{` head is silently
discarded and the rest parsed as an object body, but `&s[1..]` is a byte
slice: on `"é}"` the two-byte head `é` makes byte 1 a non-boundary and the
source panics, which is not the discard-and-continue behaviour the claim
asserts (discarding would have parsed the remaining `}` to the empty
object). -/
theorem deserialize_multibyte_head_panics :
    deserialize ("é\x7d".toList) = some PResult.crash ∧
    object_loop (2 * ("é\x7d".toList).length + 7) ['}'] [] =
      some (.ok (([] : Object), ([] : List Char))) ∧
    deserialize ("é\x7d".toList) ≠
      object_loop (2 * ("é\x7d".toList).length + 7) ['}'] [] := by
  refine ⟨rfl, rfl, fun h => ?_⟩
  have h1 : some (PResult.crash (α := Object × List Char)) =
      some (PResult.ok (([] : Object), ([] : List Char))) := h
  exact PResult.noConfusion (Option.some.inj h1)

/-- C4 (amended): whenever the first character left after skipping leading
whitespace/separators exists and is not `{`, what happens depends on that
character's UTF-8 width: a one-byte character is silently discarded and the
rest is parsed as an object body (the entry-accumulation loop), with no
`BadChar` ever raised for it; a multi-byte character makes the unchecked
`&s[1..]` byte slice panic instead. -/
theorem deserialize_discards_leading_char (s : List Char) (c : Char) (rest : List Char)
    (h : skip_whitespace s = c :: rest) (hc : c ≠ '{') :
    (c.utf8Size = 1 → deserialize s = object_loop (2 * s.length + 7) rest []) ∧
    (c.utf8Size ≠ 1 → deserialize s = some PResult.crash) := by
  have hN : 2 * s.length + 8 = (2 * s.length + 7) + 1 := rfl
  constructor
  · intro hu
    unfold deserialize
    rw [h, hN]
    simp only [get_object]
    rw [if_neg (by simp [hu])]
  · intro hu
    unfold deserialize
    rw [h, hN]
    simp only [get_object]
    rw [if_pos hu]

/-- C4 witness: on `"x}"` the one-byte leading `x` is discarded and the rest
is parsed as an object body. -/
theorem deserialize_discards_leading_char_witness :
    ('x'.utf8Size = 1 →
      deserialize ("x\x7d".toList) = object_loop (2 * ("x\x7d".toList).length + 7) ['}'] []) ∧
    ('x'.utf8Size ≠ 1 → deserialize ("x\x7d".toList) = some PResult.crash) :=
  deserialize_discards_leading_char ("x\x7d".toList) 'x' ['}'] rfl (by decide)

/-- C8: an input whose first character is uppercase `T` or `F` is dispatched
(case-insensitively) to `get_boolean`, which — matching `true`/`false`
exact-case only — always fails with `BadChar` reporting that first character;
and the spec scenario `{"a": tru}` fails with `BadChar`. -/
theorem uppercase_boolean_dispatch (c : Char) (tl : List Char) (fuel : Nat)
    (h : c = 'T' ∨ c = 'F') :
    get_boolean (c :: tl) = .err (.BadChar c 0) ∧
    get_value (fuel + 1) (c :: tl) = some (.err (.BadChar c 0)) ∧
    deserialize ("\x7b\"a\": tru\x7d".toList) = some (.err (.BadChar 't' 0)) := by
  rcases h with rfl | rfl
  · exact ⟨rfl, rfl, rfl⟩
  · exact ⟨rfl, rfl, rfl⟩

/-- C8 witness: instantiated at `T` with empty tail. -/
theorem uppercase_boolean_dispatch_witness :
    get_boolean ['T'] = .err (.BadChar 'T' 0) ∧
    get_value 1 ['T'] = some (.err (.BadChar 'T' 0)) ∧
    deserialize ("\x7b\"a\": tru\x7d".toList) = some (.err (.BadChar 't' 0)) :=
  uppercase_boolean_dispatch 'T' [] 0 (Or.inl rfl)

/-! ## Helper lemmas: crash-freedom of the scalar scanners -/

theorem get_str_ne_crash (s : List Char) : get_str s ≠ .crash := by
  rcases s with _ | ⟨c, tl⟩
  · simp [get_str]
  · by_cases hc : c = '"'
    · rcases hscan : scanStr tl false with _ | i <;> simp [get_str, hc, hscan]
    · simp [get_str, hc]

theorem get_num_ne_crash (s : List Char) : get_num s ≠ .crash := by
  rcases s with _ | ⟨c, tl⟩
  · simp [get_num]
  · by_cases hcd : (c.isDigit ∨ c = '-')
    · rcases hfd : findNonDigit tl with _ | i <;> simp [get_num, hcd, hfd]
    · simp [get_num, hcd]

theorem get_boolean_cons_ne_crash (c : Char) (tl : List Char) :
    get_boolean (c :: tl) ≠ .crash := by
  unfold get_boolean
  split
  · simp
  · split
    · simp
    · simp

/-- Crash-freedom of everything reachable from the value dispatcher: the
dispatcher peeks a character before every scalar call and checks that the
first character is literally `{`/`[` — a one-byte character — before every
composite call, so neither the empty-input nor the multi-byte-head byte-slice
crash, nor `get_boolean`'s `unwrap` crash, can surface from it. -/
theorem no_crash_aux (fuel : Nat) :
    (∀ s r, get_value fuel s = some r → r ≠ .crash) ∧
    (∀ c tl r, c.utf8Size = 1 → get_object fuel (c :: tl) = some r → r ≠ .crash) ∧
    (∀ c tl r, c.utf8Size = 1 → get_array fuel (c :: tl) = some r → r ≠ .crash) ∧
    (∀ cur acc r, object_loop fuel cur acc = some r → r ≠ .crash) ∧
    (∀ cur acc r, array_loop fuel cur acc = some r → r ≠ .crash) ∧
    (∀ s r, get_entry fuel s = some r → r ≠ .crash) := by
  induction fuel with
  | zero =>
    refine ⟨fun s r h => ?_, fun c tl r _ h => ?_, fun c tl r _ h => ?_,
      fun cur acc r h => ?_, fun cur acc r h => ?_, fun s r h => ?_⟩ <;>
      simp [get_value, get_object, get_array, object_loop, array_loop, get_entry] at h
  | succ fuel ih =>
    obtain ⟨ihv, iho, iha, ihol, ihal, ihe⟩ := ih
    have hval : ∀ s r, get_value (fuel + 1) s = some r → r ≠ .crash := by
      intro s r h
      rcases s with _ | ⟨c, tl⟩
      · simp only [get_value, Option.some.injEq] at h
        subst h
        simp
      · simp only [get_value] at h
        split at h
        · split at h
          · injection h with h1; subst h1; simp
          · injection h with h1; subst h1; simp
          · rename_i heq
            exact absurd heq (get_str_ne_crash _)
        · split at h
          · split at h
            · injection h with h1; subst h1; simp
            · injection h with h1; subst h1; simp
            · rename_i heq
              exact absurd heq (get_num_ne_crash _)
          · split at h
            · split at h
              · simp at h
              · rename_i hbrace hx heq
                exact absurd rfl (iho c tl .crash (by rw [hbrace]; decide) heq)
              · injection h with h1; subst h1; simp
              · injection h with h1; subst h1; simp
            · split at h
              · split at h
                · simp at h
                · rename_i hbracket hx heq
                  exact absurd rfl (iha c tl .crash (by rw [hbracket]; decide) heq)
                · injection h with h1; subst h1; simp
                · injection h with h1; subst h1; simp
              · split at h
                · split at h
                  · injection h with h1; subst h1; simp
                  · injection h with h1; subst h1; simp
                  · rename_i heq
                    exact absurd heq (get_boolean_cons_ne_crash c tl)
                · injection h with h1; subst h1; simp
    have hloop : ∀ cur acc r, object_loop (fuel + 1) cur acc = some r → r ≠ .crash := by
      intro cur acc r h
      rcases cur with _ | ⟨c, tl⟩
      · simp only [object_loop, Option.some.injEq] at h
        subst h
        simp
      · simp only [object_loop] at h
        split at h
        · rename_i hc
          subst hc
          split at h
          · rename_i heq
            have : skip_whitespace ('}' :: tl) = '}' :: tl := by
              simp [skip_whitespace]
            rw [this] at heq
            exact absurd heq (by simp)
          · injection h with h1; subst h1; simp
        · split at h
          · simp at h
          · rename_i heq
            exact absurd rfl (ihe _ .crash heq)
          · injection h with h1; subst h1; simp
          · rename_i entry s1 heq
            exact ihol s1 _ r h
    have haloop : ∀ cur acc r, array_loop (fuel + 1) cur acc = some r → r ≠ .crash := by
      intro cur acc r h
      rcases cur with _ | ⟨c, tl⟩
      · simp only [array_loop, Option.some.injEq] at h
        subst h
        simp
      · simp only [array_loop] at h
        split at h
        · rename_i hc
          subst hc
          split at h
          · rename_i heq
            have : skip_whitespace (']' :: tl) = ']' :: tl := by
              simp [skip_whitespace]
            rw [this] at heq
            exact absurd heq (by simp)
          · injection h with h1; subst h1; simp
        · split at h
          · simp at h
          · rename_i heq
            exact absurd rfl (ihv _ .crash heq)
          · injection h with h1; subst h1; simp
          · rename_i value s1 heq
            exact ihal s1 _ r h
    have hent : ∀ s r, get_entry (fuel + 1) s = some r → r ≠ .crash := by
      intro s r h
      simp only [get_entry] at h
      split at h
      · rename_i heq
        exact absurd heq (get_str_ne_crash _)
      · injection h with h1; subst h1; simp
      · split at h
        · simp at h
        · rename_i heq
          exact absurd rfl (ihv _ .crash heq)
        · injection h with h1; subst h1; simp
        · injection h with h1; subst h1; simp
    refine ⟨hval, ?_, ?_, hloop, haloop, hent⟩
    · intro c tl r hb h
      simp only [get_object] at h
      rw [if_neg (by simp [hb])] at h
      exact ihol tl [] r h
    · intro c tl r hb h
      simp only [get_array] at h
      rw [if_neg (by simp [hb])] at h
      exact ihal tl [] r h

/-- C10: `get_boolean` on any non-empty input returns a clean value — `Ok`,
or `BadChar` reporting the first character — and never reaches its `unwrap`
panic; the dispatcher peeks a first character before routing, so no crash
outcome ever surfaces from `get_value`; and every crash that does surface
through `deserialize` is the top-level unchecked `&s[1..]` byte slice of
`get_object` — the remainder after skipping is empty, or starts with a
multi-byte character — never `get_boolean`'s `unwrap`. -/
theorem get_boolean_total_no_crash :
    (∀ c tl, (∃ v, get_boolean (c :: tl) = .ok v) ∨
      get_boolean (c :: tl) = .err (.BadChar c 0)) ∧
    (∀ fuel s r, get_value fuel s = some r → r ≠ .crash) ∧
    (∀ s r, deserialize s = some r → r = .crash →
      skip_whitespace s = [] ∨
      ∃ c rest, skip_whitespace s = c :: rest ∧ c.utf8Size ≠ 1) := by
  refine ⟨?_, ?_, ?_⟩
  · intro c tl
    unfold get_boolean
    split
    · exact Or.inl ⟨_, rfl⟩
    · split
      · exact Or.inl ⟨_, rfl⟩
      · exact Or.inr rfl
  · intro fuel s r h
    exact (no_crash_aux fuel).1 s r h
  · intro s r h hcr
    rcases hsk : skip_whitespace s with _ | ⟨c, rest⟩
    · exact Or.inl rfl
    · by_cases hu : c.utf8Size = 1
      · unfold deserialize at h
        rw [hsk] at h
        exact absurd hcr ((no_crash_aux (2 * s.length + 8)).2.1 c rest r hu h)
      · exact Or.inr ⟨c, rest, rfl, hu⟩

/-- C10 witness: instantiations of all three conjuncts at concrete inputs. -/
theorem get_boolean_total_no_crash_witness :
    ((∃ v, get_boolean ['t'] = .ok v) ∨ get_boolean ['t'] = .err (.BadChar 't' 0)) ∧
    ((.err .EarlyEnd : PResult (Value × List Char)) ≠ .crash) ∧
    (skip_whitespace ("é\x7d".toList) = [] ∨
      ∃ c rest, skip_whitespace ("é\x7d".toList) = c :: rest ∧ c.utf8Size ≠ 1) :=
  ⟨get_boolean_total_no_crash.1 't' [],
   get_boolean_total_no_crash.2.1 1 [] (.err .EarlyEnd) rfl,
   get_boolean_total_no_crash.2.2 ("é\x7d".toList) .crash rfl rfl⟩

theorem skip_whitespace_all (pre X : List Char)
    (h : ∀ c ∈ pre, c = ' ' ∨ c = '\n' ∨ c = ',' ∨ c = ':') :
    skip_whitespace (pre ++ X) = skip_whitespace X := by
  induction pre with
  | nil => rfl
  | cons p ptl ih =>
    have hp := h p (by simp)
    have ih' := ih (fun c hc => h c (by simp [hc]))
    simp [skip_whitespace, hp, ih']

theorem skip_whitespace_nonskip (c : Char) (tl : List Char)
    (h : ¬(c = ' ' ∨ c = '\n' ∨ c = ',' ∨ c = ':')) :
    skip_whitespace (c :: tl) = c :: tl := by
  simp [skip_whitespace, h]

theorem strOk_esc (d : Char) (tl2 : List Char) : strOk ('\\' :: d :: tl2) = strOk tl2 := by
  simp [strOk]

theorem strOk_quote (tl : List Char) : strOk ('"' :: tl) = false := by
  cases tl with
  | nil => simp [strOk]
  | cons d dtl => simp [strOk]

theorem strOk_cons (c : Char) (tl : List Char) (h1 : ¬c = '\\') (h2 : ¬c = '"') :
    strOk (c :: tl) = strOk tl := by
  cases tl with
  | nil => simp [strOk, h1, h2]
  | cons d dtl => simp [strOk, h1, h2]

theorem scan_render (content : List Char) (h : strOk content = true) :
    ∀ rest, scanStr (content ++ '"' :: rest) false = some content.length := by
  induction content using strOk.induct with
  | case1 => intro rest; simp [scanStr]
  | case2 => simp [strOk] at h
  | case3 d tl2 ih =>
    intro rest
    have h' : strOk tl2 = true := by rwa [strOk_esc] at h
    simp [scanStr, ih h' rest]
  | case4 tl2 hne =>
    rw [strOk_quote] at h
    exact absurd h (by simp)
  | case5 c tl2 hne1 hne2 ih =>
    intro rest
    have h' : strOk tl2 = true := by rwa [strOk_cons c tl2 hne1 hne2] at h
    simp [scanStr, hne1, hne2, ih h' rest]

theorem get_str_render (content : List Char) (rest : List Char) (h : strOk content = true) :
    get_str ('"' :: (content ++ '"' :: rest)) = .ok (content, rest) := by
  have hscan := scan_render content h rest
  have htake : (content ++ '"' :: rest).take content.length = content :=
    List.take_left _ _
  have hdrop : (content ++ '"' :: rest).drop (content.length + 1) = rest := by
    rw [List.append_cons]
    have hl : (content ++ ['"']).length = content.length + 1 := by simp
    rw [← hl, List.drop_left]
  simp [get_str, hscan, htake, hdrop]

theorem get_num_render (c : Char) (ds : List Char) (r0 : Char) (rrest : List Char)
    (hc : c.isDigit = true ∨ c = '-') (hds : ∀ d ∈ ds, d.isDigit = true)
    (hr0 : r0.isDigit = false) :
    get_num (c :: (ds ++ r0 :: rrest)) = .ok (c :: ds, r0 :: rrest) := by
  have hfd := findNonDigit_append ds r0 rrest hds hr0
  have hcd : (c.isDigit ∨ c = '-') := by
    rcases hc with h | h
    · exact Or.inl (by simp [h])
    · exact Or.inr h
  have htake : (ds ++ r0 :: rrest).take ds.length = ds := List.take_left _ _
  have hdrop : (ds ++ r0 :: rrest).drop ds.length = r0 :: rrest := List.drop_left _ _
  simp [get_num, hcd, hfd, List.take_succ_cons, List.drop_succ_cons, htake, hdrop]

theorem starts_with_self_append (p rest : List Char) :
    starts_with (p ++ rest) p = true := by
  induction p with
  | nil => simp [starts_with]
  | cons c ptl ih => simp [starts_with, ih]

theorem get_boolean_true_render (rest : List Char) :
    get_boolean (true_lit ++ rest) = .ok (true_lit, rest) := by
  have h1 : starts_with (true_lit ++ rest) true_lit = true := starts_with_self_append _ _
  have ht : (true_lit ++ rest).take 4 = true_lit := by
    have h := List.take_left true_lit rest
    simpa [true_lit] using h
  have hd : (true_lit ++ rest).drop 4 = rest := by
    have h := List.drop_left true_lit rest
    simpa [true_lit] using h
  simp [get_boolean, h1, ht, hd]

theorem get_boolean_false_render (rest : List Char) :
    get_boolean (false_lit ++ rest) = .ok (false_lit, rest) := by
  have h0 : starts_with (false_lit ++ rest) true_lit = false := by
    simp [starts_with, true_lit, false_lit]
  have h1 : starts_with (false_lit ++ rest) false_lit = true := starts_with_self_append _ _
  have ht : (false_lit ++ rest).take 5 = false_lit := by
    have h := List.take_left false_lit rest
    simpa [false_lit] using h
  have hd : (false_lit ++ rest).drop 5 = rest := by
    have h := List.drop_left false_lit rest
    simpa [false_lit] using h
  simp [get_boolean, h0, h1, ht, hd]

theorem isSep_props (c : Char) (h : isSep c = true) :
    (c = ' ' ∨ c = '\n' ∨ c = ',' ∨ c = ':') ∧ c ≠ '}' ∧ c ≠ ']' ∧ c.isDigit = false := by
  have h' : c = ' ' ∨ c = '\n' ∨ c = ',' ∨ c = ':' := by
    simpa [isSep, or_assoc] using h
  rcases h' with rfl | rfl | rfl | rfl <;>
    exact ⟨by simp, by decide, by decide, by decide⟩

theorem allSep_prop (l : List Char) (h : l.all isSep = true) :
    ∀ c ∈ l, c = ' ' ∨ c = '\n' ∨ c = ',' ∨ c = ':' := by
  intro c hc
  exact (isSep_props c (List.all_eq_true.mp h c hc)).1

theorem headX_of_headNonDigit (l : List Char) (h : headNonDigit l = true) (close : Char)
    (rest : List Char) (hclose : close.isDigit = false) :
    ∃ x0 xrest, l ++ close :: rest = x0 :: xrest ∧ x0.isDigit = false := by
  cases l with
  | nil => exact ⟨close, rest, rfl, hclose⟩
  | cons c tl =>
    exact ⟨c, tl ++ close :: rest, rfl, by simpa [headNonDigit] using h⟩

theorem dtextValue_head (v : DValue) (hv : dvalidValue v = true) :
    ∃ c ctl, dtextValue v = c :: ctl ∧
      (c = '"' ∨ c.isDigit = true ∨ c = '-' ∨ c = '{' ∨ c = '[' ∨ c = 't' ∨ c = 'f') := by
  cases v with
  | boolean b =>
    have hb : b = true_lit ∨ b = false_lit := by simpa [dvalidValue] using hv
    have hrv : ∀ b', dtextValue (DValue.boolean b') = b' := fun b' => by simp [dtextValue]
    rcases hb with rfl | rfl
    · exact ⟨'t', ['r', 'u', 'e'], by rw [hrv]; rfl, by simp⟩
    · exact ⟨'f', ['a', 'l', 's', 'e'], by rw [hrv]; rfl, by simp⟩
  | string str => exact ⟨'"', str ++ ['"'], by simp [dtextValue], by simp⟩
  | number n =>
    rcases n with _ | ⟨c, ds⟩
    · simp [dvalidValue] at hv
    · have hc : (c.isDigit = true ∨ c = '-') := by
        have h' := hv
        simp [dvalidValue] at h'
        exact h'.1
      refine ⟨c, ds, by simp [dtextValue], ?_⟩
      rcases hc with h | h
      · exact Or.inr (Or.inl h)
      · exact Or.inr (Or.inr (Or.inl h))
  | object des => exact ⟨'{', dtextEntries des ++ ['}'], by simp [dtextValue], by simp⟩
  | array dvs => exact ⟨'[', dtextElems dvs ++ [']'], by simp [dtextValue], by simp⟩

theorem dtextEntries_headX (des : List DEntry) (hv : dvalidEntries des = true)
    (close : Char) (rest : List Char) (hclose : close.isDigit = false) :
    ∃ x0 xrest, dtextEntries des ++ close :: rest = x0 :: xrest ∧ x0.isDigit = false := by
  cases des with
  | nil => exact ⟨close, rest, by simp [dtextEntries], hclose⟩
  | cons e tl =>
    cases e with
    | mk sep1 k sep2 v =>
    have h1 : sep1.all isSep = true := by
      have h' : sep1.all isSep = true ∧ sep2.all isSep = true ∧ strOk k = true ∧
          dvalidValue v = true ∧ dvalidEntries tl = true := by
        simpa [dvalidEntries, Bool.and_assoc] using hv
      exact h'.1
    cases sep1 with
    | nil =>
      exact ⟨'"', (k ++ '"' :: (sep2 ++ (dtextValue v ++ dtextEntries tl))) ++ close :: rest,
        by simp [dtextEntries], by decide⟩
    | cons p ptl =>
      refine ⟨p, (ptl ++ ('"' :: (k ++ '"' :: (sep2 ++ (dtextValue v ++ dtextEntries tl))))) ++
        close :: rest, by simp [dtextEntries], ?_⟩
      exact (isSep_props p (List.all_eq_true.mp h1 p (by simp))).2.2.2

theorem render_head_props (c : Char)
    (h : c = '"' ∨ c.isDigit = true ∨ c = '-' ∨ c = '{' ∨ c = '[' ∨ c = 't' ∨ c = 'f') :
    ¬(c = ' ' ∨ c = '\n' ∨ c = ',' ∨ c = ':') ∧ c ≠ '}' ∧ c ≠ ']' := by
  rcases h with rfl | hd | rfl | rfl | rfl | rfl | rfl
  · exact ⟨by decide, by decide, by decide⟩
  · refine ⟨?_, ?_, ?_⟩
    · rintro (rfl | rfl | rfl | rfl) <;> simp at hd
    · rintro rfl; simp at hd
    · rintro rfl; simp at hd
  · exact ⟨by decide, by decide, by decide⟩
  · exact ⟨by decide, by decide, by decide⟩
  · exact ⟨by decide, by decide, by decide⟩
  · exact ⟨by decide, by decide, by decide⟩
  · exact ⟨by decide, by decide, by decide⟩

theorem get_value_string (fuel : Nat) (str rest : List Char) (h : strOk str = true) :
    get_value (fuel + 1) ('"' :: (str ++ '"' :: rest)) = some (.ok (.string str, rest)) := by
  have hgs := get_str_render str rest h
  simp [get_value, hgs]

theorem get_value_number (fuel : Nat) (c : Char) (ds : List Char) (r0 : Char)
    (rrest : List Char) (hc : c.isDigit = true ∨ c = '-')
    (hds : ∀ d ∈ ds, d.isDigit = true) (hr0 : r0.isDigit = false) :
    get_value (fuel + 1) (c :: (ds ++ r0 :: rrest)) =
      some (.ok (.number (c :: ds), r0 :: rrest)) := by
  have hgn := get_num_render c ds r0 rrest hc hds hr0
  have h1 : ¬(c = '"') := by
    rcases hc with h' | h'
    · rintro rfl; simp at h'
    · subst h'; decide
  have h2 : (c.isDigit ∨ c = '-') := by
    rcases hc with h' | h'
    · exact Or.inl (by simp [h'])
    · exact Or.inr h'
  simp [get_value, h1, h2, hgn]

theorem get_value_boolean_true (fuel : Nat) (rest : List Char) :
    get_value (fuel + 1) (true_lit ++ rest) = some (.ok (.boolean true_lit, rest)) := by
  have hx : true_lit ++ rest = 't' :: 'r' :: 'u' :: 'e' :: rest := by simp [true_lit]
  have hb : get_boolean ('t' :: 'r' :: 'u' :: 'e' :: rest) = .ok (true_lit, rest) := by
    rw [← hx]
    exact get_boolean_true_render rest
  rw [hx]
  simp [get_value, hb, (by decide : ('t'.isDigit) = false),
    (by decide : to_ascii_lowercase 't' = 't')]

theorem get_value_boolean_false (fuel : Nat) (rest : List Char) :
    get_value (fuel + 1) (false_lit ++ rest) = some (.ok (.boolean false_lit, rest)) := by
  have hx : false_lit ++ rest = 'f' :: 'a' :: 'l' :: 's' :: 'e' :: rest := by simp [false_lit]
  have hb : get_boolean ('f' :: 'a' :: 'l' :: 's' :: 'e' :: rest) = .ok (false_lit, rest) := by
    rw [← hx]
    exact get_boolean_false_render rest
  rw [hx]
  simp [get_value, hb, (by decide : ('f'.isDigit) = false),
    (by decide : to_ascii_lowercase 'f' = 'f')]

mutual

/-- Parsing the text of a valid decorated value, followed by a remainder that
does not begin with a digit, returns exactly the underlying value and that
remainder. -/
theorem dtext_value_rt (v : DValue) (r0 : Char) (rrest : List Char) (fuel : Nat)
    (hv : dvalidValue v = true) (hr0 : r0.isDigit = false)
    (hfuel : 2 * (dtextValue v).length + 1 ≤ fuel) :
    get_value fuel (dtextValue v ++ (r0 :: rrest)) =
      some (.ok (stripValue v, r0 :: rrest)) := by
  obtain ⟨f, rfl⟩ : ∃ f, fuel = f + 1 := ⟨fuel - 1, by omega⟩
  cases v with
  | boolean b =>
    have hb : b = true_lit ∨ b = false_lit := by simpa [dvalidValue] using hv
    have hrv : dtextValue (DValue.boolean b) = b := by simp [dtextValue]
    have hsv : stripValue (DValue.boolean b) = Value.boolean b := by simp [stripValue]
    rw [hrv, hsv]
    rcases hb with rfl | rfl
    · exact get_value_boolean_true f (r0 :: rrest)
    · exact get_value_boolean_false f (r0 :: rrest)
  | string str =>
    have h' : strOk str = true := by simpa [dvalidValue] using hv
    have hrv : dtextValue (DValue.string str) ++ (r0 :: rrest) =
        '"' :: (str ++ '"' :: (r0 :: rrest)) := by simp [dtextValue]
    have hsv : stripValue (DValue.string str) = Value.string str := by simp [stripValue]
    rw [hrv, hsv]
    exact get_value_string f str (r0 :: rrest) h'
  | number n =>
    rcases n with _ | ⟨c, ds⟩
    · exact absurd hv (by simp [dvalidValue])
    · have h' : (c.isDigit = true ∨ c = '-') ∧ ∀ d ∈ ds, d.isDigit = true := by
        simpa [dvalidValue] using hv
      have hrv : dtextValue (DValue.number (c :: ds)) ++ (r0 :: rrest) =
          c :: (ds ++ r0 :: rrest) := by simp [dtextValue]
      have hsv : stripValue (DValue.number (c :: ds)) = Value.number (c :: ds) := by
        simp [stripValue]
      rw [hrv, hsv]
      exact get_value_number f c ds r0 rrest h'.1 h'.2 hr0
  | object des =>
    have hes : dvalidEntries des = true := by simpa [dvalidValue] using hv
    have hlen : (dtextValue (DValue.object des)).length = (dtextEntries des).length + 2 := by
      simp [dtextValue]
    obtain ⟨f', rfl⟩ : ∃ f', f = f' + 1 := ⟨f - 1, by omega⟩
    have hrv : dtextValue (DValue.object des) ++ (r0 :: rrest) =
        '{' :: (dtextEntries des ++ '}' :: (r0 :: rrest)) := by simp [dtextValue]
    have hsv : stripValue (DValue.object des) = Value.object (stripEntries des) := by
      simp [stripValue]
    rw [hrv, hsv]
    have hloop := dtext_entries_rt des [] (r0 :: rrest) f' hes
      (by rw [hlen] at hfuel; omega)
    have hobj : get_object (f' + 1) ('{' :: (dtextEntries des ++ '}' :: (r0 :: rrest))) =
        some (.ok (stripEntries des, r0 :: rrest)) := by
      simp only [get_object]
      rw [if_neg (by decide)]
      simpa using hloop
    simp [get_value, hobj, (by decide : ('{'.isDigit) = false)]
  | array dvs =>
    have hvs : dvalidElems dvs = true := by simpa [dvalidValue] using hv
    have hlen : (dtextValue (DValue.array dvs)).length = (dtextElems dvs).length + 2 := by
      simp [dtextValue]
    obtain ⟨f', rfl⟩ : ∃ f', f = f' + 1 := ⟨f - 1, by omega⟩
    have hrv : dtextValue (DValue.array dvs) ++ (r0 :: rrest) =
        '[' :: (dtextElems dvs ++ ']' :: (r0 :: rrest)) := by simp [dtextValue]
    have hsv : stripValue (DValue.array dvs) = Value.array (stripElems dvs) := by
      simp [stripValue]
    rw [hrv, hsv]
    have hloop := dtext_elems_rt dvs [] (r0 :: rrest) f' hvs
      (by rw [hlen] at hfuel; omega)
    have harr : get_array (f' + 1) ('[' :: (dtextElems dvs ++ ']' :: (r0 :: rrest))) =
        some (.ok (stripElems dvs, r0 :: rrest)) := by
      simp only [get_array]
      rw [if_neg (by decide)]
      simpa using hloop
    simp [get_value, harr, (by decide : ('['.isDigit) = false),
      (by decide : to_ascii_lowercase '[' = '['), (by decide : ¬('[' = 't')),
      (by decide : ¬('[' = 'f'))]
termination_by (sizeOf v, 0)

/-- Scanning one entry of a generated text: quoted key, separator run, value,
then a remainder that does not begin with a digit. -/
theorem dtext_entry_step (k sep2 : List Char) (v : DValue) (X : List Char) (x0 : Char)
    (xrest : List Char) (fuel : Nat) (hk : strOk k = true) (hs2 : sep2.all isSep = true)
    (hv : dvalidValue v = true) (hX : X = x0 :: xrest) (hx0 : x0.isDigit = false)
    (hfuel : 2 * (dtextValue v).length + 2 ≤ fuel) :
    get_entry fuel ('"' :: (k ++ '"' :: (sep2 ++ (dtextValue v ++ X)))) =
      some (.ok (.mk k (stripValue v), X)) := by
  obtain ⟨f, rfl⟩ : ∃ f, fuel = f + 1 := ⟨fuel - 1, by omega⟩
  have hgs : get_str ('"' :: (k ++ '"' :: (sep2 ++ (dtextValue v ++ X)))) =
      .ok (k, sep2 ++ (dtextValue v ++ X)) := get_str_render k _ hk
  obtain ⟨c, ctl, hrv, hhead⟩ := dtextValue_head v hv
  have hskip : skip_whitespace (sep2 ++ (dtextValue v ++ X)) = dtextValue v ++ X := by
    rw [skip_whitespace_all sep2 _ (allSep_prop sep2 hs2), hrv, List.cons_append]
    exact skip_whitespace_nonskip c _ (render_head_props c hhead).1
  have hval : get_value f (dtextValue v ++ X) = some (.ok (stripValue v, X)) := by
    rw [hX]
    exact dtext_value_rt v x0 xrest f hv hx0 (by omega)
  simp only [get_entry, hgs, hskip, hval]
termination_by (sizeOf v, 1)

/-- The object loop consumes the generated text of the remaining decorated
entries — each behind its own separator run — up to the closing `}`,
appending the underlying entries to the accumulator. -/
theorem dtext_entries_rt (des : List DEntry) (acc : List Entry) (rest : List Char)
    (fuel : Nat) (hes : dvalidEntries des = true)
    (hfuel : 2 * (dtextEntries des).length + 2 ≤ fuel) :
    object_loop fuel (dtextEntries des ++ '}' :: rest) acc =
      some (.ok (acc ++ stripEntries des, rest)) := by
  obtain ⟨f, rfl⟩ : ∃ f, fuel = f + 1 := ⟨fuel - 1, by omega⟩
  cases des with
  | nil =>
    have hre : dtextEntries ([] : List DEntry) = [] := by simp [dtextEntries]
    have hse : stripEntries ([] : List DEntry) = [] := by simp [stripEntries]
    rw [hre, hse]
    simp [object_loop, skip_whitespace]
  | cons e tl =>
    cases e with
    | mk sep1 k sep2 v =>
    have h' : sep1.all isSep = true ∧ sep2.all isSep = true ∧ strOk k = true ∧
        dvalidValue v = true ∧ dvalidEntries tl = true := by
      simpa [dvalidEntries, Bool.and_assoc] using hes
    obtain ⟨hs1, hs2, hk, hval', htl⟩ := h'
    have hs1p := allSep_prop sep1 hs1
    have hre : dtextEntries (DEntry.mk sep1 k sep2 v :: tl) =
        sep1 ++ ('"' :: (k ++ '"' :: (sep2 ++ (dtextValue v ++ dtextEntries tl)))) := by
      simp [dtextEntries]
    have hse : stripEntries (DEntry.mk sep1 k sep2 v :: tl) =
        Entry.mk k (stripValue v) :: stripEntries tl := by
      simp [stripEntries]
    have hlenE : (dtextEntries (DEntry.mk sep1 k sep2 v :: tl)).length =
        sep1.length + k.length + sep2.length + (dtextValue v).length +
          (dtextEntries tl).length + 2 := by
      rw [hre]
      simp
      omega
    rw [hre, hse]
    have hcons : ∃ d0 dtl,
        (sep1 ++ ('"' :: (k ++ '"' :: (sep2 ++ (dtextValue v ++ dtextEntries tl))))) ++
          '}' :: rest = d0 :: dtl ∧ d0 ≠ '}' := by
      rcases sep1 with _ | ⟨p, ptl⟩
      · exact ⟨'"', (k ++ '"' :: (sep2 ++ (dtextValue v ++ dtextEntries tl))) ++ '}' :: rest,
          by simp, by decide⟩
      · refine ⟨p, (ptl ++ ('"' :: (k ++ '"' :: (sep2 ++ (dtextValue v ++ dtextEntries tl))))) ++
          '}' :: rest, by simp, ?_⟩
        have hp := hs1p p (by simp)
        rcases hp with rfl | rfl | rfl | rfl <;> decide
    obtain ⟨d0, dtl, hcur, hd0⟩ := hcons
    rw [hcur]
    simp only [object_loop]
    rw [if_neg hd0, ← hcur]
    have hskip : skip_whitespace ((sep1 ++ ('"' :: (k ++ '"' :: (sep2 ++
          (dtextValue v ++ dtextEntries tl))))) ++ '}' :: rest) =
        '"' :: (k ++ '"' :: (sep2 ++ (dtextValue v ++ (dtextEntries tl ++ '}' :: rest)))) := by
      have h2 : (sep1 ++ ('"' :: (k ++ '"' :: (sep2 ++ (dtextValue v ++ dtextEntries tl))))) ++
          '}' :: rest = sep1 ++ ('"' :: (k ++ '"' :: (sep2 ++
            (dtextValue v ++ (dtextEntries tl ++ '}' :: rest))))) := by simp
      rw [h2, skip_whitespace_all sep1 _ hs1p]
      exact skip_whitespace_nonskip '"' _ (by decide)
    rw [hskip]
    have hX : ∃ x0 xrest, dtextEntries tl ++ '}' :: rest = x0 :: xrest ∧ x0.isDigit = false :=
      dtextEntries_headX tl htl '}' rest (by decide)
    obtain ⟨x0, xrest, hXe, hx0⟩ := hX
    have hstep := dtext_entry_step k sep2 v (dtextEntries tl ++ '}' :: rest) x0 xrest f
      hk hs2 hval' hXe hx0 (by rw [hlenE] at hfuel; omega)
    rw [hstep]
    have hrec := dtext_entries_rt tl (acc ++ [Entry.mk k (stripValue v)]) rest f htl
      (by rw [hlenE] at hfuel; omega)
    simpa using hrec
termination_by (sizeOf des, 2)

/-- The array loop consumes the generated text of the remaining decorated
elements — each behind its own separator run — up to the closing `]`,
appending the underlying values to the accumulator. -/
theorem dtext_elems_rt (dvs : List DElem) (acc : List Value) (rest : List Char)
    (fuel : Nat) (hvs : dvalidElems dvs = true)
    (hfuel : 2 * (dtextElems dvs).length + 2 ≤ fuel) :
    array_loop fuel (dtextElems dvs ++ ']' :: rest) acc =
      some (.ok (acc ++ stripElems dvs, rest)) := by
  obtain ⟨f, rfl⟩ : ∃ f, fuel = f + 1 := ⟨fuel - 1, by omega⟩
  cases dvs with
  | nil =>
    have hre : dtextElems ([] : List DElem) = [] := by simp [dtextElems]
    have hse : stripElems ([] : List DElem) = [] := by simp [stripElems]
    rw [hre, hse]
    simp [array_loop, skip_whitespace]
  | cons e tl =>
    cases e with
    | mk sep v =>
    have h' : sep.all isSep = true ∧ dvalidValue v = true ∧ dvalidElems tl = true ∧
        headNonDigit (dtextElems tl) = true := by
      simpa [dvalidElems, Bool.and_assoc] using hvs
    obtain ⟨hs, hval', htl, hhd⟩ := h'
    have hsp := allSep_prop sep hs
    obtain ⟨c0, ctl0, hrv0, hhead⟩ := dtextValue_head v hval'
    obtain ⟨hnskip, hnbrace, hnbracket⟩ := render_head_props c0 hhead
    have hre : dtextElems (DElem.mk sep v :: tl) =
        sep ++ (dtextValue v ++ dtextElems tl) := by
      simp [dtextElems]
    have hse : stripElems (DElem.mk sep v :: tl) = stripValue v :: stripElems tl := by
      simp [stripElems]
    have hlenv : (dtextValue v).length = ctl0.length + 1 := by
      rw [hrv0]
      simp
    have hlenV : (dtextElems (DElem.mk sep v :: tl)).length =
        sep.length + (dtextValue v).length + (dtextElems tl).length := by
      rw [hre]
      simp
      omega
    rw [hre, hse]
    have hcons : ∃ d0 dtl, (sep ++ (dtextValue v ++ dtextElems tl)) ++ ']' :: rest =
        d0 :: dtl ∧ d0 ≠ ']' := by
      rcases sep with _ | ⟨p, ptl⟩
      · exact ⟨c0, (ctl0 ++ dtextElems tl) ++ ']' :: rest, by rw [hrv0]; simp, hnbracket⟩
      · refine ⟨p, (ptl ++ (dtextValue v ++ dtextElems tl)) ++ ']' :: rest, by simp, ?_⟩
        have hp := hsp p (by simp)
        rcases hp with rfl | rfl | rfl | rfl <;> decide
    obtain ⟨d0, dtl, hcur, hd0⟩ := hcons
    rw [hcur]
    simp only [array_loop]
    rw [if_neg hd0, ← hcur]
    have hskip : skip_whitespace ((sep ++ (dtextValue v ++ dtextElems tl)) ++ ']' :: rest) =
        dtextValue v ++ (dtextElems tl ++ ']' :: rest) := by
      have h2 : (sep ++ (dtextValue v ++ dtextElems tl)) ++ ']' :: rest =
          sep ++ (dtextValue v ++ (dtextElems tl ++ ']' :: rest)) := by simp
      rw [h2, skip_whitespace_all sep _ hsp, hrv0, List.cons_append]
      exact skip_whitespace_nonskip c0 _ hnskip
    rw [hskip]
    have hX : ∃ x0 xrest, dtextElems tl ++ ']' :: rest = x0 :: xrest ∧ x0.isDigit = false :=
      headX_of_headNonDigit (dtextElems tl) hhd ']' rest (by decide)
    obtain ⟨x0, xrest, hXe, hx0⟩ := hX
    have hvalstep : get_value f (dtextValue v ++ (dtextElems tl ++ ']' :: rest)) =
        some (.ok (stripValue v, dtextElems tl ++ ']' :: rest)) := by
      rw [hXe]
      exact dtext_value_rt v x0 xrest f hval' hx0 (by rw [hlenV] at hfuel; omega)
    rw [hvalstep]
    have hrec := dtext_elems_rt tl (acc ++ [stripValue v]) rest f htl
      (by rw [hlenV] at hfuel; rw [hlenv] at hfuel; omega)
    simpa using hrec
termination_by (sizeOf dvs, 2)

end

end Jstr
